import Mathlib

/-!
Verification of the acquisition-function core of `optuna/_gp`
(`acqf.py` and `optim_sample.py`).

The numeric code is embedded over the real numbers: torch tensors of
floats become `ℝ`, 1-D tensors become `List ℝ` or `Fin d → ℝ`, and
2-D tensors become `Matrix` or `List` of points.  The external
collaborators (the kernel, the posterior, the search-space sampler and
the reverse-mode differentiation engine) are passed in as explicit
function parameters, exactly as the spec treats them: opaque
deterministic functions.
-/

open MeasureTheory Real Set Filter

noncomputable section

namespace OptunaGP

/-! ### Error functions

Mathlib does not provide `erf`, so the three error functions used by
`torch.special` are defined here by their mathematical definitions:
`erf x = (2/√π) ∫ t in 0..x, exp (-t²)`, `erfc = 1 - erf`, and
`erfcx x = exp (x²) · erfc x` (the scaled complementary error function).
-/

/-- Gauss error function, the semantics of `torch.special.erf`. -/
def erf (x : ℝ) : ℝ := (2 / Real.sqrt π) * ∫ t in (0:ℝ)..x, Real.exp (-t ^ 2)

/-- Complementary error function, the semantics of `torch.special.erfc`. -/
def erfc (x : ℝ) : ℝ := 1 - erf x

/-- Scaled complementary error function, the semantics of `torch.special.erfcx`. -/
def erfcx (x : ℝ) : ℝ := Real.exp (x ^ 2) * erfc x

/-! ### Stable log-EI math (source: `acqf.py`, `standard_logei` / `logei`)

`standard_logei` in the source is vectorized: it computes the boolean
mask `small = z < -25`, gathers the two sub-batches, applies one closed
formula to each, and scatters the results back.  `logei_small_formula`
and `logei_normal_formula` are the two closed formulas, transcribed
term by term; `standard_logei` is the resulting per-element semantics,
and `standard_logei_tensor` below reproduces the masked gather/scatter
implementation on `List ℝ`.
-/

/-- The branch of `standard_logei` taken for elements with `z < -25`:
`r = sqrt(0.5·π)·erfcx(-z·sqrt 0.5)` and the value is
`-0.5·z² + log((z·r + 1)·(1/sqrt(2·π)))`. -/
def logei_small_formula (z : ℝ) : ℝ :=
  -0.5 * z ^ 2 +
    Real.log ((z * (Real.sqrt (0.5 * π) * erfcx (-z * Real.sqrt 0.5)) + 1) *
      (1 / Real.sqrt (2 * π)))

/-- The branch of `standard_logei` taken for elements with `z ≥ -25`:
`cdf = 0.5·erfc(-z·sqrt 0.5)`, `pdf = exp(-0.5·z²)·(1/sqrt(2·π))`, and
the value is `log (z·cdf + pdf)`. -/
def logei_normal_formula (z : ℝ) : ℝ :=
  Real.log (z * (0.5 * erfc (-z * Real.sqrt 0.5)) +
    Real.exp (-0.5 * z ^ 2) * (1 / Real.sqrt (2 * π)))

/-- Per-element semantics of the source `standard_logei`: route on the
fixed threshold `-25`. -/
def standard_logei (z : ℝ) : ℝ :=
  if z < -25 then logei_small_formula z else logei_normal_formula z

/-- Gather `v[mask == b]`: the elements of `v` whose mask entry is `b`. -/
def maskSelect {α : Type} (b : Bool) (mask : List Bool) (v : List α) : List α :=
  (mask.zip v).filterMap (fun p => if p.1 == b then some p.2 else none)

/-- Scatter two gathered lists back through a mask: positions whose mask
entry is `true` are filled from `as` in order, the rest from `bs`.  This
is the semantics of the two masked assignments `vals[small] = ...`,
`vals[~small] = ...` in the source. -/
def maskScatter {α : Type} : List Bool → List α → List α → List α
  | [], _, _ => []
  | true :: ms, a :: as, bs => a :: maskScatter ms as bs
  | true :: _, [], _ => []
  | false :: ms, as, b :: bs => b :: maskScatter ms as bs
  | false :: _, _, [] => []

/-- The vectorized `standard_logei` of the source, on a batch `z`:
build the mask `small = z < -25`, gather `z[small]` and `z[~small]`,
apply the two branch formulas, and scatter the results back. -/
def standard_logei_tensor (z : List ℝ) : List ℝ :=
  let small : List Bool := z.map (fun zi => decide (zi < -25))
  maskScatter small
    ((maskSelect true small z).map logei_small_formula)
    ((maskSelect false small z).map logei_normal_formula)

/-- Source `logei`: `sigma = sqrt var`, then
`log sigma + standard_logei ((mean - f0)/sigma)`. -/
def logei (mean var f0 : ℝ) : ℝ :=
  Real.log (Real.sqrt var) + standard_logei ((mean - f0) / Real.sqrt var)

/-- Source `ucb`: `mean + sqrt (beta * var)`. -/
def ucb (mean var beta : ℝ) : ℝ := mean + Real.sqrt (beta * var)

/-- Source `lcb`: `mean - sqrt (beta * var)`. -/
def lcb (mean var beta : ℝ) : ℝ := mean - Real.sqrt (beta * var)

/-! ### The Gaussian expectation the spec compares `logei` against -/

/-- Density of the standard normal distribution. -/
def stdNormalPdf (x : ℝ) : ℝ := Real.exp (-0.5 * x ^ 2) * (1 / Real.sqrt (2 * π))

/-- Density of the normal distribution with the given mean and variance. -/
def normalPdf (mean var y : ℝ) : ℝ :=
  Real.exp (-((y - mean) ^ 2) / (2 * var)) * (1 / Real.sqrt (2 * π * var))

/-- The expected improvement `E_{y ~ N(mean, var)}[max 0 (y - f0)]`,
written as a Lebesgue integral against the normal density. -/
def expectedImprovement (mean var f0 : ℝ) : ℝ :=
  ∫ y : ℝ, max 0 (y - f0) * normalPdf mean var y

/-! ### Data model (source: `acqf.py`, `BaseAcquisitionFunction` and variants)

`KernelParamsTensor` and `SearchSpace` live in collaborator modules;
only the pieces this core reads are modelled: the scalar `noise_var`
hyperparameter and the per-dimension `scale_types` vector (spec §3
describes both as otherwise opaque). -/

/-- Kernel hyperparameters.  Only `noise_var` is read by this core
(`kernel_params.noise_var.item()` in `__init__`); all other
hyperparameters are consumed inside the opaque kernel/posterior
collaborators. -/
structure KernelParams where
  noise_var : ℝ

/-- Modelled from the spec: per-dimension scale types of the search
space; the only fact this core uses is whether a dimension is
`CATEGORICAL`. -/
inductive ScaleType where
  | LINEAR
  | LOG
  | CATEGORICAL
  deriving DecidableEq

/-- Modelled from the spec: the search-space descriptor, reduced to the
per-dimension scale-type tags this core reads. -/
structure SearchSpace (d : ℕ) where
  scale_types : Fin d → ScaleType

/-- The boolean categorical-dimension mask
`search_space.scale_types == ScaleType.CATEGORICAL`. -/
def categoricalMask {d : ℕ} (ss : SearchSpace d) : Fin d → Bool :=
  fun i => ss.scale_types i == ScaleType.CATEGORICAL

/-- Type of the kernel collaborator
`kernel(is_categorical, kernel_params, A, B)`. -/
def KernelFn (n d : ℕ) : Type :=
  (Fin d → Bool) → KernelParams → Matrix (Fin n) (Fin d) ℝ →
    Matrix (Fin n) (Fin d) ℝ → Matrix (Fin n) (Fin n) ℝ

/-- Type of the posterior collaborator
`posterior(kernel_params, X, is_categorical, cov_Y_Y_inv, cov_Y_Y_inv_Y, x)`,
returning the posterior `(mean, var)` at a query point. -/
def Posterior (n d : ℕ) : Type :=
  KernelParams → Matrix (Fin n) (Fin d) ℝ → (Fin d → Bool) →
    Matrix (Fin n) (Fin n) ℝ → (Fin n → ℝ) → (Fin d → ℝ) → ℝ × ℝ

/-- State stored by `BaseAcquisitionFunction.__init__`: the constructor
arguments it keeps and the two cached covariance quantities. -/
structure BaseAcquisitionFunction (n d : ℕ) where
  kernel_params : KernelParams
  search_space : SearchSpace d
  X : Matrix (Fin n) (Fin d) ℝ
  cov_Y_Y_inv : Matrix (Fin n) (Fin n) ℝ
  cov_Y_Y_inv_Y : Fin n → ℝ

/-- The regularized kernel matrix built in `__init__`: `K(X, X)` with
`noise_var` added to every diagonal entry, i.e. `K + noise_var • I`. -/
def regularizedKernelMatrix {n d : ℕ} (kernelFn : KernelFn n d)
    (kp : KernelParams) (ss : SearchSpace d) (X : Matrix (Fin n) (Fin d) ℝ) :
    Matrix (Fin n) (Fin n) ℝ :=
  kernelFn (categoricalMask ss) kp X X + kp.noise_var • (1 : Matrix (Fin n) (Fin n) ℝ)

/-- `BaseAcquisitionFunction.__init__`: build the categorical mask, call
the kernel collaborator on `(X, X)`, add `noise_var` to the diagonal,
invert (`np.linalg.inv`, modelled by the Mathlib matrix inverse), and
cache the inverse and `cov_Y_Y_inv @ Y`. -/
def baseInit {n d : ℕ} (kernelFn : KernelFn n d) (kp : KernelParams)
    (ss : SearchSpace d) (X : Matrix (Fin n) (Fin d) ℝ) (Y : Fin n → ℝ) :
    BaseAcquisitionFunction n d :=
  let cov_Y_Y := regularizedKernelMatrix kernelFn kp ss X
  let cov_Y_Y_inv := cov_Y_Y⁻¹
  { kernel_params := kp
    search_space := ss
    X := X
    cov_Y_Y_inv := cov_Y_Y_inv
    cov_Y_Y_inv_Y := cov_Y_Y_inv.mulVec Y }

/-- `BaseAcquisitionFunction._get_mean_var`: delegate to the posterior
collaborator with the stored state and the query point. -/
def get_mean_var {n d : ℕ} (post : Posterior n d)
    (a : BaseAcquisitionFunction n d) (x : Fin d → ℝ) : ℝ × ℝ :=
  post a.kernel_params a.X (categoricalMask a.search_space) a.cov_Y_Y_inv a.cov_Y_Y_inv_Y x

/-- `np.max` over a nonempty vector of observations. -/
def npMax {n : ℕ} (hn : 0 < n) (Y : Fin n → ℝ) : ℝ :=
  Finset.univ.sup' ⟨⟨0, hn⟩, Finset.mem_univ _⟩ Y

/-- The `LogEI` variant: the base state plus the incumbent `max_Y` and
the stabilizing noise added to the posterior variance. -/
structure LogEI (n d : ℕ) extends BaseAcquisitionFunction n d where
  max_Y : ℝ
  acqf_stabilizing_noise : ℝ

/-- `LogEI.__init__`: run the base constructor, then store
`max_Y = np.max(Y)` and `acqf_stabilizing_noise` (default `1e-12`). -/
def logEIInit {n d : ℕ} (kernelFn : KernelFn n d) (kp : KernelParams)
    (ss : SearchSpace d) (X : Matrix (Fin n) (Fin d) ℝ) (Y : Fin n → ℝ)
    (hn : 0 < n) (acqf_stabilizing_noise : ℝ := 1e-12) : LogEI n d :=
  { toBaseAcquisitionFunction := baseInit kernelFn kp ss X Y
    max_Y := npMax hn Y
    acqf_stabilizing_noise := acqf_stabilizing_noise }

/-- `LogEI.eval`: posterior moments at `x`, then
`logei(mean, var + acqf_stabilizing_noise, max_Y)`. -/
def LogEI.eval {n d : ℕ} (post : Posterior n d) (a : LogEI n d)
    (x : Fin d → ℝ) : ℝ :=
  let mv := get_mean_var post a.toBaseAcquisitionFunction x
  logei mv.1 (mv.2 + a.acqf_stabilizing_noise) a.max_Y

/-- The `BaseConfidenceBound` variants: base state plus `beta`. -/
structure ConfidenceBound (n d : ℕ) extends BaseAcquisitionFunction n d where
  beta : ℝ

/-- `UCB.eval`: posterior moments at `x`, then `ucb(mean, var, beta)`. -/
def UCB.eval {n d : ℕ} (post : Posterior n d) (a : ConfidenceBound n d)
    (x : Fin d → ℝ) : ℝ :=
  let mv := get_mean_var post a.toBaseAcquisitionFunction x
  ucb mv.1 mv.2 a.beta

/-- `LCB.eval`: posterior moments at `x`, then `lcb(mean, var, beta)`. -/
def LCB.eval {n d : ℕ} (post : Posterior n d) (a : ConfidenceBound n d)
    (x : Fin d → ℝ) : ℝ :=
  let mv := get_mean_var post a.toBaseAcquisitionFunction x
  lcb mv.1 mv.2 a.beta

/-! ### Evaluation contracts (source: `eval_no_grad` / `eval_with_grad`)

Inputs are numpy arrays of dimensionality 1 (a single point) or 2 (a
batch of points); the abstract `eval` hook is a pointwise function,
applied elementwise on a batch exactly as the vectorized torch formulas
are. -/

/-- A numpy array argument: a single `d`-dimensional point (`ndim = 1`)
or a batch of points (`ndim = 2`). -/
inductive NpArray (d : ℕ) where
  | arr1 (x : Fin d → ℝ)
  | arr2 (xs : List (Fin d → ℝ))

/-- Dimensionality of a numpy array argument. -/
def NpArray.ndim {d : ℕ} : NpArray d → ℕ
  | .arr1 _ => 1
  | .arr2 _ => 2

/-- Result of a value-only evaluation: a scalar for a single point, a
vector of values for a batch. -/
inductive NpResult where
  | scalar (c : ℝ)
  | vector (v : List ℝ)

/-- Batched application of the abstract `eval` hook. -/
def evalBatch {d : ℕ} (f : (Fin d → ℝ) → ℝ) (xs : List (Fin d → ℝ)) : List ℝ :=
  xs.map f

/-- `eval_no_grad`: evaluate the abstract `eval` hook without building a
differentiation graph; the shape of the result follows the input. -/
def eval_no_grad {d : ℕ} (f : (Fin d → ℝ) → ℝ) : NpArray d → NpResult
  | .arr1 x => .scalar (f x)
  | .arr2 xs => .vector (evalBatch f xs)

/-- The reverse-mode differentiation engine (torch autograd): given a
scalar-valued function and a point, produce the gradient vector, which
torch guarantees has the shape of the input leaf tensor. -/
def GradEngine (d : ℕ) : Type := ((Fin d → ℝ) → ℝ) → (Fin d → ℝ) → (Fin d → ℝ)

/-- `eval_with_grad`: assert `x.ndim == 1` (an `AssertionError` is
modelled by `Except.error`), evaluate the hook, and return the scalar
value together with the gradient produced by the engine. -/
def eval_with_grad {d : ℕ} (engine : GradEngine d) (f : (Fin d → ℝ) → ℝ)
    (x : NpArray d) : Except String (ℝ × (Fin d → ℝ)) :=
  match x with
  | .arr1 v => .ok (f v, engine f v)
  | .arr2 _ => .error "AssertionError: x.ndim == 1"

/-! ### Sample-based maximizer (source: `optim_sample.py`) -/

/-- A seedable random source (`np.random.RandomState`); `none` selects
the default global source, as in the Python signature. -/
def Rng : Type := Option ℕ

/-- Type of the search-space sampler collaborator
`sample_normalized_params(n, search_space, rng)`. -/
def Sampler (d : ℕ) : Type := ℕ → SearchSpace d → Rng → List (Fin d → ℝ)

/-- `np.argmax` on a list of reals: the first index achieving the
maximum, paired with the maximal value; `none` on the empty list (where
`np.argmax` raises). -/
def npArgmax : List ℝ → Option (ℕ × ℝ)
  | [] => none
  | x :: xs =>
    match npArgmax xs with
    | none => some (0, x)
    | some (j, m) => if x < m then some (j + 1, m) else some (0, x)

/-- `optimize_acqf_sample`: draw `n_samples` normalized candidates from
the sampler, evaluate the value-only batched contract over the whole
batch, and return `(xs[best_i], res[best_i])` for `best_i = np.argmax(res)`.
The abstract `eval` hook of the acquisition-function instance is the
explicit parameter `f`. -/
def optimize_acqf_sample {n d : ℕ} (sampler : Sampler d)
    (f : (Fin d → ℝ) → ℝ) (a : BaseAcquisitionFunction n d)
    (n_samples : ℕ := 2048) (rng : Rng := none) :
    Option ((Fin d → ℝ) × ℝ) :=
  let xs := sampler n_samples a.search_space rng
  let res := evalBatch f xs
  (npArgmax res).map (fun im => (xs.getD im.1 (fun _ => 0), im.2))

/-! ### Operations on an instance, for the immutability claim -/

/-- The operations that can be performed on a constructed
acquisition-function instance. -/
inductive AcqfOp (d : ℕ) where
  | evalNoGrad (x : NpArray d)
  | evalWithGrad (x : NpArray d)
  | optSample (n_samples : ℕ) (rng : Rng)

/-- Result of one operation. -/
inductive OpResult (d : ℕ) where
  | arr (r : NpResult)
  | valGrad (r : Except String (ℝ × (Fin d → ℝ)))
  | best (r : Option ((Fin d → ℝ) × ℝ))

/-- Run one operation against an instance, returning the instance in
its post-call state together with the result.  The source methods never
assign to `self` outside `__init__`, so the post-call state is the
instance itself. -/
def applyOp {n d : ℕ} (sampler : Sampler d) (engine : GradEngine d)
    (f : (Fin d → ℝ) → ℝ) (a : BaseAcquisitionFunction n d) :
    AcqfOp d → BaseAcquisitionFunction n d × OpResult d
  | .evalNoGrad x => (a, .arr (eval_no_grad f x))
  | .evalWithGrad x => (a, .valGrad (eval_with_grad engine f x))
  | .optSample m rng => (a, .best (optimize_acqf_sample sampler f a m rng))

/-- Run a sequence of operations, threading the instance state. -/
def applyOps {n d : ℕ} (sampler : Sampler d) (engine : GradEngine d)
    (f : (Fin d → ℝ) → ℝ) (a : BaseAcquisitionFunction n d) :
    List (AcqfOp d) → BaseAcquisitionFunction n d
  | [] => a
  | op :: ops => applyOps sampler engine f (applyOp sampler engine f a op).1 ops

/-! ### Concrete instances used by the closed witness theorems -/

/-- A concrete kernel collaborator for witnesses: constant covariance 1
between any two points (as a `1×1` matrix, the identity). -/
def exampleKernelFn : KernelFn 1 1 := fun _ _ _ _ => 1

/-- A concrete posterior collaborator for witnesses: standard-normal
prior moments everywhere. -/
def examplePosterior : Posterior 1 1 := fun _ _ _ _ _ _ => (0, 1)

/-- Concrete kernel hyperparameters for witnesses: unit noise variance. -/
def exampleKp : KernelParams := ⟨1⟩

/-- A concrete one-dimensional search space for witnesses. -/
def exampleSs : SearchSpace 1 := ⟨fun _ => ScaleType.LINEAR⟩

/-- A concrete design matrix for witnesses. -/
def exampleX : Matrix (Fin 1) (Fin 1) ℝ := 0

/-- A concrete observation vector for witnesses. -/
def exampleY : Fin 1 → ℝ := fun _ => 1

/-- A concrete sampler collaborator for witnesses: `n` copies of the
origin. -/
def exampleSampler : Sampler 1 := fun n _ _ => List.replicate n (fun _ => 0)

/-- A concrete differentiation engine for witnesses: the zero gradient. -/
def exampleEngine : GradEngine 1 := fun _ _ => (fun _ => 0)

/-! ## Theorems -/

/-! ### Mask gather/scatter: the vectorized routing is elementwise -/

theorem maskSelect_cons {α : Type} (b mb : Bool) (ms : List Bool) (x : α)
    (xs : List α) :
    maskSelect b (mb :: ms) (x :: xs) =
      if mb == b then x :: maskSelect b ms xs else maskSelect b ms xs := by
  cases mb <;> cases b <;> simp [maskSelect, List.filterMap_cons]

theorem maskScatter_select_eq_map {α β : Type} (m : α → Bool) (f g : α → β) :
    ∀ z : List α,
      maskScatter (z.map m) ((maskSelect true (z.map m) z).map f)
        ((maskSelect false (z.map m) z).map g) =
      z.map (fun x => if m x then f x else g x)
  | [] => rfl
  | x :: z => by
    cases hm : m x <;>
      simp [maskSelect_cons, hm, maskScatter, maskScatter_select_eq_map m f g z]

theorem standard_logei_tensor_eq_map (z : List ℝ) :
    standard_logei_tensor z = z.map standard_logei := by
  unfold standard_logei_tensor
  rw [maskScatter_select_eq_map (fun zi => decide (zi < -25))
    logei_small_formula logei_normal_formula z]
  refine List.map_congr_left fun x _ => ?_
  by_cases hx : x < -25 <;> simp [standard_logei, hx]

theorem getD_map_of_lt {α β : Type} (f : α → β) (l : List α) (j : ℕ)
    (h : j < l.length) (d : β) (d' : α) :
    (l.map f).getD j d = f (l.getD j d') := by
  rw [List.getD_eq_getElem _ _ (by simpa using h), List.getD_eq_getElem _ _ h,
    List.getElem_map]

/-- C2: `standard_logei` routes each element of the input batch
independently by the fixed threshold `-25` and returns a batch of the
same shape: elements with `z ≥ -25` get `log (z·cdf + pdf)` with
`cdf = 0.5·erfc(-z/√2)` and `pdf = exp(-z²/2)/√(2π)`; elements with
`z < -25` get `-z²/2 + log((z·r + 1)/√(2π))` with
`r = √(π/2)·erfcx(-z/√2)`. -/
theorem standard_logei_batch_routing (z : List ℝ) :
    (standard_logei_tensor z).length = z.length ∧
    ∀ i : ℕ, i < z.length →
      (standard_logei_tensor z).getD i 0 =
        if z.getD i 0 < -25 then logei_small_formula (z.getD i 0)
        else logei_normal_formula (z.getD i 0) := by
  rw [standard_logei_tensor_eq_map]
  refine ⟨List.length_map z standard_logei, fun i hi => ?_⟩
  rw [getD_map_of_lt standard_logei z i hi 0 0]
  rfl

/-- C2 witness: a concrete two-element batch exercising both branches. -/
theorem standard_logei_batch_routing_witness :
    (standard_logei_tensor [-30, 0]).length = 2 ∧
    (standard_logei_tensor [-30, 0]).getD 0 0 = logei_small_formula (-30) ∧
    (standard_logei_tensor [-30, 0]).getD 1 0 = logei_normal_formula 0 := by
  obtain ⟨hlen, hget⟩ := standard_logei_batch_routing [-30, 0]
  have h0 := hget 0 (by norm_num)
  have h1 := hget 1 (by norm_num)
  rw [show (([-30, 0] : List ℝ).getD 0 0) = -30 from rfl] at h0
  rw [show (([-30, 0] : List ℝ).getD 1 0) = 0 from rfl] at h1
  rw [if_pos (by norm_num)] at h0
  rw [if_neg (by norm_num)] at h1
  exact ⟨hlen, h0, h1⟩

/-! ### Confidence bounds -/

/-- C6: `ucb(mean, var, beta) = mean + sqrt(beta·var)` and
`lcb(mean, var, beta) = mean - sqrt(beta·var)`, hence their difference
is `2·sqrt(beta·var)`, and both collapse to `mean` when `beta = 0`. -/
theorem ucb_lcb_spec (mean var beta : ℝ) (hvar : 0 ≤ var) (hbeta : 0 ≤ beta) :
    ucb mean var beta = mean + Real.sqrt (beta * var) ∧
    lcb mean var beta = mean - Real.sqrt (beta * var) ∧
    ucb mean var beta - lcb mean var beta = 2 * Real.sqrt (beta * var) ∧
    (beta = 0 → ucb mean var beta = mean ∧ lcb mean var beta = mean) := by
  refine ⟨rfl, rfl, by simp only [ucb, lcb]; ring, ?_⟩
  rintro rfl
  simp [ucb, lcb]

/-- C6 witness: the spec identities at `(mean, var, beta) = (3, 4, 0)`. -/
theorem ucb_lcb_spec_witness :
    ucb 3 4 0 = 3 + Real.sqrt (0 * 4) ∧
    lcb 3 4 0 = 3 - Real.sqrt (0 * 4) ∧
    ucb 3 4 0 - lcb 3 4 0 = 2 * Real.sqrt (0 * 4) ∧
    ((0 : ℝ) = 0 → ucb 3 4 0 = 3 ∧ lcb 3 4 0 = 3) :=
  ucb_lcb_spec 3 4 0 (by norm_num) (by norm_num)

/-! ### Covariance state built at construction -/

/-- C3: `BaseAcquisitionFunction.__init__` adds `noise_var` to every
diagonal entry of the kernel matrix, stores `cov_Y_Y_inv` as the
inverse of the result and `cov_Y_Y_inv_Y = cov_Y_Y_inv @ Y`; whenever
the regularized matrix is invertible,
`cov_Y_Y_inv * (K(X,X) + noise_var·I) = 1`. -/
theorem baseInit_covariance_spec {n d : ℕ} (kernelFn : KernelFn n d)
    (kp : KernelParams) (ss : SearchSpace d) (X : Matrix (Fin n) (Fin d) ℝ)
    (Y : Fin n → ℝ)
    (hinv : IsUnit (regularizedKernelMatrix kernelFn kp ss X).det) :
    (∀ i j, regularizedKernelMatrix kernelFn kp ss X i j =
      kernelFn (categoricalMask ss) kp X X i j +
        (if i = j then kp.noise_var else 0)) ∧
    (baseInit kernelFn kp ss X Y).cov_Y_Y_inv =
      (regularizedKernelMatrix kernelFn kp ss X)⁻¹ ∧
    (baseInit kernelFn kp ss X Y).cov_Y_Y_inv_Y =
      (baseInit kernelFn kp ss X Y).cov_Y_Y_inv.mulVec Y ∧
    (baseInit kernelFn kp ss X Y).cov_Y_Y_inv *
      regularizedKernelMatrix kernelFn kp ss X = 1 := by
  refine ⟨fun i j => ?_, rfl, rfl, ?_⟩
  · simp [regularizedKernelMatrix, Matrix.add_apply, Matrix.smul_apply,
      Matrix.one_apply, smul_eq_mul, mul_ite, mul_one, mul_zero]
  · show (regularizedKernelMatrix kernelFn kp ss X)⁻¹ *
      regularizedKernelMatrix kernelFn kp ss X = 1
    exact Matrix.nonsing_inv_mul _ hinv

/-- C3 witness: a one-point, one-dimensional instance with kernel value
`1` and unit noise, whose regularized matrix `[[2]]` is invertible. -/
theorem baseInit_covariance_spec_witness :
    (∀ i j, regularizedKernelMatrix exampleKernelFn exampleKp exampleSs
        exampleX i j =
      exampleKernelFn (categoricalMask exampleSs) exampleKp exampleX exampleX
          i j +
        (if i = j then exampleKp.noise_var else 0)) ∧
    (baseInit exampleKernelFn exampleKp exampleSs exampleX
        exampleY).cov_Y_Y_inv =
      (regularizedKernelMatrix exampleKernelFn exampleKp exampleSs
        exampleX)⁻¹ ∧
    (baseInit exampleKernelFn exampleKp exampleSs exampleX
        exampleY).cov_Y_Y_inv_Y =
      (baseInit exampleKernelFn exampleKp exampleSs exampleX
        exampleY).cov_Y_Y_inv.mulVec exampleY ∧
    (baseInit exampleKernelFn exampleKp exampleSs exampleX
        exampleY).cov_Y_Y_inv *
      regularizedKernelMatrix exampleKernelFn exampleKp exampleSs exampleX =
        1 :=
  baseInit_covariance_spec exampleKernelFn exampleKp exampleSs exampleX
    exampleY
    (by
      have : (regularizedKernelMatrix exampleKernelFn exampleKp exampleSs
          exampleX).det = 2 := by
        simp [regularizedKernelMatrix, exampleKernelFn, exampleKp, exampleSs,
          exampleX, Matrix.det_fin_one, Matrix.add_apply, Matrix.smul_apply,
          Matrix.one_apply]
        norm_num
      rw [this]
      exact isUnit_iff_ne_zero.mpr (by norm_num))

/-! ### LogEI variant state and evaluation -/

/-- C5: a `LogEI` instance stores `max_Y = np.max(Y)` (an upper bound
of `Y` attained by some entry), `acqf_stabilizing_noise` defaults to
`1e-12`, and `LogEI.eval` at a point returns
`logei(mean, var + acqf_stabilizing_noise, max_Y)` for the posterior
moments `(mean, var)` at that point. -/
theorem logEI_spec {n d : ℕ} (kernelFn : KernelFn n d) (post : Posterior n d)
    (kp : KernelParams) (ss : SearchSpace d) (X : Matrix (Fin n) (Fin d) ℝ)
    (Y : Fin n → ℝ) (hn : 0 < n) (noise : ℝ) (x : Fin d → ℝ) :
    (∀ i, Y i ≤ (logEIInit kernelFn kp ss X Y hn noise).max_Y) ∧
    (∃ i, (logEIInit kernelFn kp ss X Y hn noise).max_Y = Y i) ∧
    (logEIInit kernelFn kp ss X Y hn).acqf_stabilizing_noise = 1e-12 ∧
    LogEI.eval post (logEIInit kernelFn kp ss X Y hn noise) x =
      logei (get_mean_var post (baseInit kernelFn kp ss X Y) x).1
        ((get_mean_var post (baseInit kernelFn kp ss X Y) x).2 + noise)
        (npMax hn Y) := by
  refine ⟨fun i => ?_, ?_, rfl, rfl⟩
  · exact Finset.le_sup' Y (Finset.mem_univ i)
  · obtain ⟨i, _, hi⟩ := Finset.exists_mem_eq_sup'
      (⟨⟨0, hn⟩, Finset.mem_univ _⟩ : (Finset.univ : Finset (Fin n)).Nonempty) Y
    exact ⟨i, hi⟩

/-- C5 witness: the concrete one-point instance. -/
theorem logEI_spec_witness :
    (∀ i, exampleY i ≤
      (logEIInit exampleKernelFn exampleKp exampleSs exampleX exampleY
        (by norm_num) 1e-12).max_Y) ∧
    (∃ i, (logEIInit exampleKernelFn exampleKp exampleSs exampleX exampleY
        (by norm_num) 1e-12).max_Y = exampleY i) ∧
    (logEIInit exampleKernelFn exampleKp exampleSs exampleX exampleY
        (by norm_num)).acqf_stabilizing_noise = 1e-12 ∧
    LogEI.eval examplePosterior
        (logEIInit exampleKernelFn exampleKp exampleSs exampleX exampleY
          (by norm_num) 1e-12) (fun _ => 0) =
      logei (get_mean_var examplePosterior
          (baseInit exampleKernelFn exampleKp exampleSs exampleX exampleY)
          (fun _ => 0)).1
        ((get_mean_var examplePosterior
          (baseInit exampleKernelFn exampleKp exampleSs exampleX exampleY)
          (fun _ => 0)).2 + 1e-12)
        (npMax (by norm_num) exampleY) :=
  logEI_spec exampleKernelFn examplePosterior exampleKp exampleSs exampleX
    exampleY (by norm_num) 1e-12 (fun _ => 0)

/-! ### Evaluation contracts -/

/-- C8: `eval_with_grad` accepts exactly the 1-dimensional inputs: on a
1-D input it returns the scalar value of the `eval` hook together with
the gradient vector produced by the engine (a vector indexed like the
input), and on an input of any other dimensionality it fails with the
assertion error. -/
theorem eval_with_grad_requires_1d {d : ℕ} (engine : GradEngine d)
    (f : (Fin d → ℝ) → ℝ) (x : NpArray d) :
    (x.ndim = 1 →
      ∃ v, x = .arr1 v ∧
        eval_with_grad engine f x = .ok (f v, engine f v)) ∧
    (x.ndim ≠ 1 →
      eval_with_grad engine f x = .error "AssertionError: x.ndim == 1") := by
  cases x with
  | arr1 v => exact ⟨fun _ => ⟨v, rfl, rfl⟩, fun h => absurd rfl h⟩
  | arr2 xs =>
    refine ⟨fun h => ?_, fun _ => rfl⟩
    simp [NpArray.ndim] at h

/-- C8 witness: the contract at a concrete 1-D input and a concrete
2-D input. -/
theorem eval_with_grad_requires_1d_witness :
    (∃ v, (NpArray.arr1 (d := 1) (fun _ => 3)) = .arr1 v ∧
      eval_with_grad exampleEngine (fun _ => 5) (.arr1 (fun _ => 3)) =
        .ok ((fun _ => (5 : ℝ)) v, exampleEngine (fun _ => 5) v)) ∧
    eval_with_grad exampleEngine (fun _ => (5 : ℝ)) (.arr2 []) =
      .error "AssertionError: x.ndim == 1" :=
  ⟨(eval_with_grad_requires_1d exampleEngine (fun _ => 5)
      (.arr1 (fun _ => 3))).1 rfl,
    (eval_with_grad_requires_1d exampleEngine (fun _ => 5) (.arr2 [])).2
      (by simp [NpArray.ndim])⟩

/-- C10: on a single 1-D point the scalar value returned by
`eval_with_grad` and the value returned by `eval_no_grad` are the same
number `f v`, both produced by the same abstract `eval` hook `f`. -/
theorem eval_with_grad_value_eq_eval_no_grad {d : ℕ} (engine : GradEngine d)
    (f : (Fin d → ℝ) → ℝ) (v : Fin d → ℝ) :
    eval_with_grad engine f (.arr1 v) = .ok (f v, engine f v) ∧
    eval_no_grad f (.arr1 v) = .scalar (f v) :=
  ⟨rfl, rfl⟩

/-! ### Immutability of instances -/

/-- C9: no operation on a constructed acquisition-function instance
(`eval_no_grad`, `eval_with_grad`, or being passed to
`optimize_acqf_sample`) changes any of its stored fields: after any
single operation and after any sequence of operations the instance is
unchanged. -/
theorem acqf_instances_immutable {n d : ℕ} (sampler : Sampler d)
    (engine : GradEngine d) (f : (Fin d → ℝ) → ℝ)
    (a : BaseAcquisitionFunction n d) :
    (∀ op, (applyOp sampler engine f a op).1 = a) ∧
    ∀ ops, applyOps sampler engine f a ops = a := by
  have hop : ∀ (b : BaseAcquisitionFunction n d) (op : AcqfOp d),
      (applyOp sampler engine f b op).1 = b := by
    intro b op
    cases op <;> rfl
  refine ⟨hop a, fun ops => ?_⟩
  induction ops with
  | nil => rfl
  | cons op ops ih => rw [applyOps, hop a op]; exact ih

/-! ### Sample-based maximizer -/

theorem npArgmax_spec (l : List ℝ) (hl : l ≠ []) :
    ∃ i m, npArgmax l = some (i, m) ∧ i < l.length ∧ l.getD i 0 = m ∧
      (∀ j, j < l.length → l.getD j 0 ≤ m) ∧ ∀ j, j < i → l.getD j 0 < m := by
  induction l with
  | nil => exact absurd rfl hl
  | cons x xs ih =>
    rcases eq_or_ne xs [] with rfl | hne
    · refine ⟨0, x, rfl, by simp, rfl, ?_, by omega⟩
      intro j hj
      have hj0 : j = 0 := by simp at hj; omega
      subst hj0
      simp
    · obtain ⟨j, m, heq, hjlen, hget, hmax, hfirst⟩ := ih hne
      by_cases hx : x < m
      · refine ⟨j + 1, m, ?_, by simpa using Nat.succ_lt_succ hjlen, ?_, ?_, ?_⟩
        · simp [npArgmax, heq, hx]
        · simpa using hget
        · intro jj hjj
          cases jj with
          | zero => exact le_of_lt hx
          | succ jj' => exact hmax jj' (by simpa using hjj)
        · intro jj hjj
          cases jj with
          | zero => exact hx
          | succ jj' => exact hfirst jj' (by omega)
      · refine ⟨0, x, ?_, by simp, rfl, ?_, by omega⟩
        · simp [npArgmax, heq, hx]
        · intro jj hjj
          cases jj with
          | zero => simp
          | succ jj' =>
            exact le_trans (hmax jj' (by simpa using hjj)) (not_lt.mp hx)

/-- C4: `optimize_acqf_sample` draws `n_samples` candidates, evaluates
the value-only batched contract over the whole batch, and returns the
pair `(xs[i], res[i])` at the first index `i` achieving the maximal
value; in particular with `n_samples = 1` it returns exactly the single
sampled candidate and its evaluated value. -/
theorem optimize_acqf_sample_spec {n d : ℕ} (sampler : Sampler d)
    (f : (Fin d → ℝ) → ℝ) (a : BaseAcquisitionFunction n d)
    (n_samples : ℕ) (rng : Rng)
    (hlen : (sampler n_samples a.search_space rng).length = n_samples)
    (hpos : 1 ≤ n_samples) :
    eval_no_grad f (.arr2 (sampler n_samples a.search_space rng)) =
      .vector (evalBatch f (sampler n_samples a.search_space rng)) ∧
    ∃ i, i < n_samples ∧
      optimize_acqf_sample sampler f a n_samples rng =
        some ((sampler n_samples a.search_space rng).getD i (fun _ => 0),
          (evalBatch f (sampler n_samples a.search_space rng)).getD i 0) ∧
      (∀ j, j < n_samples →
        (evalBatch f (sampler n_samples a.search_space rng)).getD j 0 ≤
        (evalBatch f (sampler n_samples a.search_space rng)).getD i 0) ∧
      (∀ j, j < i →
        (evalBatch f (sampler n_samples a.search_space rng)).getD j 0 <
        (evalBatch f (sampler n_samples a.search_space rng)).getD i 0) ∧
      (n_samples = 1 →
        optimize_acqf_sample sampler f a n_samples rng =
          some ((sampler n_samples a.search_space rng).getD 0 (fun _ => 0),
            f ((sampler n_samples a.search_space rng).getD 0 (fun _ => 0)))) := by
  set xs := sampler n_samples a.search_space rng with hxs
  set res := evalBatch f xs with hres
  have hreslen : res.length = n_samples := by
    rw [hres, evalBatch, List.length_map, hlen]
  have hne : res ≠ [] := by
    intro h
    rw [h] at hreslen
    simp at hreslen
    omega
  obtain ⟨i, m, heq, hilen, hget, hmax, hfirst⟩ := npArgmax_spec res hne
  rw [hreslen] at hilen hmax
  have hopt : optimize_acqf_sample sampler f a n_samples rng =
      some (xs.getD i (fun _ => 0), m) := by
    show (npArgmax res).map _ = _
    rw [heq]
    rfl
  refine ⟨rfl, i, hilen, by rw [hopt, hget], fun j hj => ?_, ?_, ?_⟩
  · rw [hget]; exact hmax j hj
  · intro j hj; rw [hget]; exact hfirst j hj
  · intro h1
    have hi0 : i = 0 := by omega
    have h0len : 0 < xs.length := by rw [hlen]; omega
    have hv : res.getD 0 0 = f (xs.getD 0 (fun _ => 0)) := by
      rw [hres, evalBatch, getD_map_of_lt f xs 0 h0len 0 (fun _ => 0)]
    have hm : m = res.getD 0 0 := by rw [← hget, hi0]
    rw [hopt, hi0, hm, hv]

/-- C4 witness: a single-sample run on the concrete instance returns
the one sampled candidate and its value. -/
theorem optimize_acqf_sample_spec_witness :
    eval_no_grad (fun _ => (5 : ℝ))
      (.arr2 (exampleSampler 1
        (baseInit exampleKernelFn exampleKp exampleSs exampleX
          exampleY).search_space (some 0))) =
      .vector (evalBatch (fun _ => 5)
        (exampleSampler 1
          (baseInit exampleKernelFn exampleKp exampleSs exampleX
            exampleY).search_space (some 0))) ∧
    ∃ i, i < 1 ∧
      optimize_acqf_sample exampleSampler (fun _ => 5)
          (baseInit exampleKernelFn exampleKp exampleSs exampleX exampleY)
          1 (some 0) =
        some ((exampleSampler 1
            (baseInit exampleKernelFn exampleKp exampleSs exampleX
              exampleY).search_space (some 0)).getD i (fun _ => 0),
          (evalBatch (fun _ => 5)
            (exampleSampler 1
              (baseInit exampleKernelFn exampleKp exampleSs exampleX
                exampleY).search_space (some 0))).getD i 0) ∧
      (∀ j, j < 1 →
        (evalBatch (fun _ => (5 : ℝ))
          (exampleSampler 1
            (baseInit exampleKernelFn exampleKp exampleSs exampleX
              exampleY).search_space (some 0))).getD j 0 ≤
        (evalBatch (fun _ => 5)
          (exampleSampler 1
            (baseInit exampleKernelFn exampleKp exampleSs exampleX
              exampleY).search_space (some 0))).getD i 0) ∧
      (∀ j, j < i →
        (evalBatch (fun _ => (5 : ℝ))
          (exampleSampler 1
            (baseInit exampleKernelFn exampleKp exampleSs exampleX
              exampleY).search_space (some 0))).getD j 0 <
        (evalBatch (fun _ => 5)
          (exampleSampler 1
            (baseInit exampleKernelFn exampleKp exampleSs exampleX
              exampleY).search_space (some 0))).getD i 0) ∧
      (1 = 1 →
        optimize_acqf_sample exampleSampler (fun _ => 5)
            (baseInit exampleKernelFn exampleKp exampleSs exampleX exampleY)
            1 (some 0) =
          some ((exampleSampler 1
              (baseInit exampleKernelFn exampleKp exampleSs exampleX
                exampleY).search_space (some 0)).getD 0 (fun _ => 0),
            (fun _ => 5) ((exampleSampler 1
              (baseInit exampleKernelFn exampleKp exampleSs exampleX
                exampleY).search_space (some 0)).getD 0 (fun _ => 0)))) :=
  optimize_acqf_sample_spec exampleSampler (fun _ => 5)
    (baseInit exampleKernelFn exampleKp exampleSs exampleX exampleY) 1
    (some 0) (by simp [exampleSampler]) (by norm_num)

/-- C7: `optimize_acqf_sample` is deterministic in its random source:
two runs with identically-seeded random sources (and the same sampler,
acquisition instance, and hook) return identical `(point, value)`
outputs. -/
theorem optimize_acqf_sample_deterministic {n d : ℕ} (sampler : Sampler d)
    (f : (Fin d → ℝ) → ℝ) (a : BaseAcquisitionFunction n d) (n_samples : ℕ)
    (rng₁ rng₂ : Rng) (h : rng₁ = rng₂) :
    optimize_acqf_sample sampler f a n_samples rng₁ =
      optimize_acqf_sample sampler f a n_samples rng₂ := by
  rw [h]

/-- C7 witness: two runs with the same seed on a concrete instance. -/
theorem optimize_acqf_sample_deterministic_witness :
    optimize_acqf_sample exampleSampler (fun _ => 5)
        (baseInit exampleKernelFn exampleKp exampleSs exampleX exampleY)
        2 (some 42) =
      optimize_acqf_sample exampleSampler (fun _ => 5)
        (baseInit exampleKernelFn exampleKp exampleSs exampleX exampleY)
        2 (some 42) :=
  optimize_acqf_sample_deterministic exampleSampler (fun _ => 5)
    (baseInit exampleKernelFn exampleKp exampleSs exampleX exampleY) 2
    (some 42) (some 42) rfl

/-! ### Gaussian integral facts feeding the log-EI correctness claim -/

theorem integrable_gauss : Integrable (fun x : ℝ => Real.exp (-0.5 * x ^ 2)) :=
  integrable_exp_neg_mul_sq (by norm_num)

theorem integrable_mul_gauss :
    Integrable (fun x : ℝ => x * Real.exp (-0.5 * x ^ 2)) :=
  integrable_mul_exp_neg_mul_sq (by norm_num)

theorem integral_gauss_total :
    ∫ x : ℝ, Real.exp (-0.5 * x ^ 2) = Real.sqrt (2 * π) := by
  rw [integral_gaussian (0.5 : ℝ), show π / (0.5 : ℝ) = 2 * π by ring]

theorem integral_gauss_Ioi_zero :
    ∫ x in Ioi (0 : ℝ), Real.exp (-0.5 * x ^ 2) = Real.sqrt (2 * π) / 2 := by
  rw [integral_gaussian_Ioi (0.5 : ℝ), show π / (0.5 : ℝ) = 2 * π by ring]

theorem integral_gauss_Iic_zero :
    ∫ x in Iic (0 : ℝ), Real.exp (-0.5 * x ^ 2) = Real.sqrt (2 * π) / 2 := by
  have h := integral_comp_neg_Iic (0 : ℝ) (fun x => Real.exp (-0.5 * x ^ 2))
  simp only [neg_zero, mul_pow, neg_sq] at h
  rw [← integral_gauss_Ioi_zero, ← h]

theorem intervalGauss_eq_erf (b : ℝ) :
    ∫ t in (0 : ℝ)..b, Real.exp (-t ^ 2) = Real.sqrt π / 2 * erf b := by
  rw [erf]
  have hπ : Real.sqrt π ≠ 0 :=
    ne_of_gt (Real.sqrt_pos.mpr Real.pi_pos)
  field_simp
  ring

theorem sqrt_half_inv_mul :
    (Real.sqrt 0.5)⁻¹ * (Real.sqrt π / 2) = Real.sqrt (2 * π) / 2 := by
  rw [show (0.5 : ℝ) = 2⁻¹ by norm_num, Real.sqrt_inv, inv_inv,
    Real.sqrt_mul (by norm_num : (0 : ℝ) ≤ 2)]
  ring

theorem intervalGauss_scaled (a : ℝ) :
    ∫ t in (0 : ℝ)..a, Real.exp (-0.5 * t ^ 2) =
      (Real.sqrt 0.5)⁻¹ * (Real.sqrt π / 2 * erf (Real.sqrt 0.5 * a)) := by
  have hc : Real.sqrt 0.5 ≠ 0 :=
    ne_of_gt (Real.sqrt_pos.mpr (by norm_num))
  have hsq : ∀ t : ℝ, Real.exp (-0.5 * t ^ 2) =
      (fun u => Real.exp (-u ^ 2)) (Real.sqrt 0.5 * t) := by
    intro t
    simp only [mul_pow, Real.sq_sqrt (by norm_num : (0 : ℝ) ≤ 0.5)]
    ring_nf
  rw [intervalIntegral.integral_congr (g := fun t =>
    (fun u => Real.exp (-u ^ 2)) (Real.sqrt 0.5 * t)) (fun t _ => hsq t)]
  rw [intervalIntegral.integral_comp_mul_left (fun u => Real.exp (-u ^ 2)) hc]
  rw [mul_zero, intervalGauss_eq_erf, smul_eq_mul]

theorem integral_Ioi_gauss (a : ℝ) :
    ∫ x in Ioi a, Real.exp (-0.5 * x ^ 2) =
      Real.sqrt (2 * π) * (0.5 * erfc (a * Real.sqrt 0.5)) := by
  have hIic : ∫ x in Iic a, Real.exp (-0.5 * x ^ 2) =
      Real.sqrt (2 * π) / 2 +
        (Real.sqrt 0.5)⁻¹ * (Real.sqrt π / 2 * erf (Real.sqrt 0.5 * a)) := by
    have h := intervalIntegral.integral_Iic_sub_Iic
      (f := fun x : ℝ => Real.exp (-0.5 * x ^ 2)) (μ := volume)
      integrable_gauss.integrableOn integrable_gauss.integrableOn
      (a := 0) (b := a)
    rw [integral_gauss_Iic_zero, intervalGauss_scaled] at h
    linarith
  have htot := intervalIntegral.integral_Iic_add_Ioi
    (f := fun x : ℝ => Real.exp (-0.5 * x ^ 2)) (μ := volume) (b := a)
    integrable_gauss.integrableOn integrable_gauss.integrableOn
  rw [hIic, integral_gauss_total] at htot
  have htot' : Real.sqrt (2 * π) / 2 +
      (Real.sqrt 0.5)⁻¹ * (Real.sqrt π / 2 * erf (Real.sqrt 0.5 * a)) +
      ∫ x in Ioi a, Real.exp (-0.5 * x ^ 2) = Real.sqrt (2 * π) := by
    simpa using htot
  have hsub : (Real.sqrt 0.5)⁻¹ * (Real.sqrt π / 2) * erf (Real.sqrt 0.5 * a) =
      Real.sqrt (2 * π) / 2 * erf (Real.sqrt 0.5 * a) := by
    rw [sqrt_half_inv_mul]
  rw [erfc, mul_comm a (Real.sqrt 0.5)]
  nlinarith [htot', hsub]

theorem integral_Ioi_mul_gauss (a : ℝ) :
    ∫ x in Ioi a, x * Real.exp (-0.5 * x ^ 2) = Real.exp (-0.5 * a ^ 2) := by
  have hderiv : ∀ x ∈ Ici a,
      HasDerivAt (fun y : ℝ => -Real.exp (-0.5 * y ^ 2))
        (x * Real.exp (-0.5 * x ^ 2)) x := by
    intro x _
    have h1 : HasDerivAt (fun y : ℝ => -0.5 * y ^ 2) (-0.5 * (2 * x)) x := by
      simpa using (hasDerivAt_pow 2 x).const_mul (-0.5 : ℝ)
    have h2 := (h1.exp).neg
    convert h2 using 1
    ring
  have htend : Tendsto (fun y : ℝ => -Real.exp (-0.5 * y ^ 2)) atTop (nhds 0) := by
    rw [show (0 : ℝ) = -0 by norm_num]
    refine Tendsto.neg ?_
    refine Real.tendsto_exp_atBot.comp ?_
    have hsq : Tendsto (fun y : ℝ => y ^ 2) atTop atTop :=
      tendsto_pow_atTop (by norm_num)
    have := hsq.const_mul_atTop (by norm_num : (0 : ℝ) < 0.5)
    have hneg : Tendsto (fun y : ℝ => -(0.5 * y ^ 2)) atTop atBot :=
      tendsto_neg_atBot_iff.mpr this
    refine hneg.congr fun y => by ring
  have h := integral_Ioi_of_hasDerivAt_of_tendsto' hderiv
    integrable_mul_gauss.integrableOn htend
  simpa using h

theorem integral_max_eq_setIntegral (z : ℝ) :
    ∫ x : ℝ, max 0 (x + z) * stdNormalPdf x =
      ∫ x in Ioi (-z), (x + z) * stdNormalPdf x := by
  have hind : (fun x : ℝ => max 0 (x + z) * stdNormalPdf x) =
      Set.indicator (Ioi (-z)) (fun x => (x + z) * stdNormalPdf x) := by
    funext x
    rw [Set.indicator_apply]
    by_cases hx : x ∈ Ioi (-z)
    · rw [if_pos hx]
      have hxz : -z < x := hx
      rw [max_eq_right (by linarith)]
    · rw [if_neg hx]
      have hxz : x ≤ -z := by simpa using hx
      rw [max_eq_left (by linarith), zero_mul]
  rw [hind, integral_indicator measurableSet_Ioi]

theorem integrableOn_shifted_pdf (z a : ℝ) :
    IntegrableOn (fun x : ℝ => (x + z) * stdNormalPdf x) (Ioi a) := by
  have hfun : (fun x : ℝ => (x + z) * stdNormalPdf x) =
      fun x : ℝ =>
        (x * Real.exp (-0.5 * x ^ 2) + z * Real.exp (-0.5 * x ^ 2)) *
          (1 / Real.sqrt (2 * π)) := by
    funext x
    rw [stdNormalPdf]
    ring
  rw [hfun]
  exact ((integrable_mul_gauss.add
    (integrable_gauss.const_mul z)).mul_const _).integrableOn

theorem integral_max_shift (z : ℝ) :
    ∫ x : ℝ, max 0 (x + z) * stdNormalPdf x =
      z * (0.5 * erfc (-z * Real.sqrt 0.5)) + stdNormalPdf z := by
  rw [integral_max_eq_setIntegral z]
  have hsplit : ∫ x in Ioi (-z), (x + z) * stdNormalPdf x =
      ∫ x in Ioi (-z),
        (x * Real.exp (-0.5 * x ^ 2) + z * Real.exp (-0.5 * x ^ 2)) *
          (1 / Real.sqrt (2 * π)) := by
    refine setIntegral_congr_fun measurableSet_Ioi fun x _ => ?_
    rw [stdNormalPdf]
    ring
  rw [hsplit, MeasureTheory.integral_mul_right,
    MeasureTheory.integral_add integrable_mul_gauss.integrableOn
      (integrable_gauss.const_mul z).integrableOn,
    MeasureTheory.integral_mul_left, integral_Ioi_mul_gauss (-z),
    integral_Ioi_gauss (-z)]
  have h2π : (0 : ℝ) < Real.sqrt (2 * π) :=
    Real.sqrt_pos.mpr (by positivity)
  rw [stdNormalPdf, neg_sq]
  field_simp
  ring

theorem standardEI_pos (z : ℝ) :
    0 < z * (0.5 * erfc (-z * Real.sqrt 0.5)) + stdNormalPdf z := by
  have hpdf : ∀ x : ℝ, 0 < stdNormalPdf x := by
    intro x
    rw [stdNormalPdf]
    positivity
  rw [← integral_max_shift z, integral_max_eq_setIntegral z]
  have h1 : 0 ≤ᵐ[volume.restrict (Ioi (-z))]
      fun x => (x + z) * stdNormalPdf x := by
    refine (ae_restrict_iff' measurableSet_Ioi).mpr (ae_of_all _ fun x hx => ?_)
    have hxz : 0 < x + z := by
      have : -z < x := hx
      linarith
    exact mul_nonneg hxz.le (hpdf x).le
  refine (setIntegral_pos_iff_support_of_nonneg_ae h1
    (integrableOn_shifted_pdf z (-z))).mpr ?_
  have hsub : Ioi (-z) ⊆
      Function.support (fun x => (x + z) * stdNormalPdf x) ∩ Ioi (-z) := by
    intro x hx
    have hxz : 0 < x + z := by
      have : -z < x := hx
      linarith
    exact ⟨Function.mem_support.mpr (ne_of_gt (mul_pos hxz (hpdf x))), hx⟩
  have hle := measure_mono (μ := volume) hsub
  rw [Real.volume_Ioi] at hle
  exact lt_of_lt_of_le (by simp) hle

theorem standard_logei_eq_log (z : ℝ) :
    standard_logei z =
      Real.log (z * (0.5 * erfc (-z * Real.sqrt 0.5)) + stdNormalPdf z) := by
  by_cases hz : z < -25
  · rw [standard_logei, if_pos hz, logei_small_formula]
    have hsqw : (-z * Real.sqrt 0.5) ^ 2 = 0.5 * z ^ 2 := by
      rw [mul_pow, neg_sq, Real.sq_sqrt (by norm_num : (0 : ℝ) ≤ 0.5)]
      ring
    have hE : Real.exp (-0.5 * z ^ 2) * Real.exp (0.5 * z ^ 2) = 1 := by
      rw [← Real.exp_add, show (-0.5 : ℝ) * z ^ 2 + 0.5 * z ^ 2 = 0 by ring,
        Real.exp_zero]
    have hs : Real.sqrt (0.5 * π) * (1 / Real.sqrt (2 * π)) = 0.5 := by
      have h2π : (0 : ℝ) < Real.sqrt (2 * π) :=
        Real.sqrt_pos.mpr (by positivity)
      rw [show (0.5 * π : ℝ) = 0.25 * (2 * π) by ring,
        Real.sqrt_mul (by norm_num : (0 : ℝ) ≤ 0.25),
        show Real.sqrt (0.25 : ℝ) = 0.5 by
          rw [show (0.25 : ℝ) = 0.5 ^ 2 by norm_num,
            Real.sqrt_sq (by norm_num : (0 : ℝ) ≤ 0.5)]]
      field_simp
    have hP : z * (0.5 * erfc (-z * Real.sqrt 0.5)) + stdNormalPdf z =
        Real.exp (-0.5 * z ^ 2) *
          ((z * (Real.sqrt (0.5 * π) * erfcx (-z * Real.sqrt 0.5)) + 1) *
            (1 / Real.sqrt (2 * π))) := by
      rw [erfcx, hsqw, stdNormalPdf]
      linear_combination (-(z * erfc (-z * Real.sqrt 0.5))) * hs +
        (-(z * erfc (-z * Real.sqrt 0.5) * Real.sqrt (0.5 * π) *
          (1 / Real.sqrt (2 * π)))) * hE
    have hW : 0 < (z * (Real.sqrt (0.5 * π) * erfcx (-z * Real.sqrt 0.5)) + 1) *
        (1 / Real.sqrt (2 * π)) := by
      have hpos := standardEI_pos z
      rw [hP] at hpos
      nlinarith [Real.exp_pos (-0.5 * z ^ 2)]
    rw [hP, Real.log_mul (Real.exp_ne_zero _) hW.ne', Real.log_exp]
  · rw [standard_logei, if_neg hz]
    rfl

theorem expectedImprovement_eq (mean var f0 : ℝ) (hvar : 0 < var) :
    expectedImprovement mean var f0 =
      Real.sqrt var *
        ∫ x : ℝ, max 0 (x + (mean - f0) / Real.sqrt var) * stdNormalPdf x := by
  have hσ : 0 < Real.sqrt var := Real.sqrt_pos.mpr hvar
  have hstep1 : expectedImprovement mean var f0 =
      ∫ u : ℝ, max 0 (u + mean - f0) * normalPdf mean var (u + mean) := by
    rw [expectedImprovement]
    exact (integral_add_right_eq_self
      (fun y => max 0 (y - f0) * normalPdf mean var y) mean).symm
  have hpt : ∀ x : ℝ,
      (fun u => max 0 (u + mean - f0) * normalPdf mean var (u + mean))
        (Real.sqrt var * x) =
      max 0 (x + (mean - f0) / Real.sqrt var) * stdNormalPdf x := by
    intro x
    show max 0 (Real.sqrt var * x + mean - f0) *
        normalPdf mean var (Real.sqrt var * x + mean) =
      max 0 (x + (mean - f0) / Real.sqrt var) * stdNormalPdf x
    have hmax : max 0 (Real.sqrt var * x + mean - f0) =
        Real.sqrt var * max 0 (x + (mean - f0) / Real.sqrt var) := by
      rw [mul_max_of_nonneg _ _ hσ.le, mul_zero]
      congr 1
      field_simp
      ring
    have hpdfeq : normalPdf mean var (Real.sqrt var * x + mean) =
        stdNormalPdf x * (Real.sqrt var)⁻¹ := by
      rw [normalPdf, stdNormalPdf]
      have h1 : Real.sqrt var * x + mean - mean = Real.sqrt var * x := by ring
      have h2 : (Real.sqrt var * x) ^ 2 = var * x ^ 2 := by
        rw [mul_pow, Real.sq_sqrt hvar.le]
      have h3 : -(var * x ^ 2) / (2 * var) = -0.5 * x ^ 2 := by
        field_simp
        ring
      have h4 : Real.sqrt (2 * π * var) = Real.sqrt (2 * π) * Real.sqrt var := by
        rw [Real.sqrt_mul (by positivity) var]
      rw [h1, h2, h3, h4]
      have h2π : (0 : ℝ) < Real.sqrt (2 * π) :=
        Real.sqrt_pos.mpr (by positivity)
      field_simp
    rw [hmax, hpdfeq]
    field_simp
    ring
  have hcomp := MeasureTheory.Measure.integral_comp_mul_left
    (fun u => max 0 (u + mean - f0) * normalPdf mean var (u + mean))
    (Real.sqrt var)
  rw [funext hpt, abs_of_pos (inv_pos.mpr hσ), smul_eq_mul] at hcomp
  rw [hstep1, hcomp, ← mul_assoc, mul_inv_cancel₀ hσ.ne', one_mul]

/-- C1: `logei(mean, var, f0)` computes `sigma = sqrt var` and
`z = (mean - f0)/sigma` and returns `log sigma + standard_logei z`,
which equals `log E_{y ~ N(mean, var)}[max 0 (y - f0)]` for every
strictly positive variance. -/
theorem logei_correct (mean var f0 : ℝ) (hvar : 0 < var) :
    logei mean var f0 =
      Real.log (Real.sqrt var) +
        standard_logei ((mean - f0) / Real.sqrt var) ∧
    logei mean var f0 = Real.log (expectedImprovement mean var f0) := by
  refine ⟨rfl, ?_⟩
  have hσ : 0 < Real.sqrt var := Real.sqrt_pos.mpr hvar
  rw [expectedImprovement_eq mean var f0 hvar, integral_max_shift,
    Real.log_mul hσ.ne' (standardEI_pos _).ne', logei,
    standard_logei_eq_log]

/-- C1 witness: the identity at `(mean, var, f0) = (0, 1, 0)`. -/
theorem logei_correct_witness :
    (0 : ℝ) < 1 ∧
    (logei 0 1 0 =
      Real.log (Real.sqrt 1) + standard_logei ((0 - 0) / Real.sqrt 1) ∧
    logei 0 1 0 = Real.log (expectedImprovement 0 1 0)) :=
  ⟨by norm_num, logei_correct 0 1 0 (by norm_num)⟩

end OptunaGP
